import Mathlib

/-!
Verification of the HFSM (hierarchical finite state machine) library core.

The development shallowly embeds the data model of the library: the static
tree shape with its compile-time counts (StateCount, ForkCount), the
build-time shape check, the Fork activation record, the bounded transition
request queue, the request-submission API of the root controller and the
Control handle, the injection (hook) interface, and the tick resolution
loop with its substitution bound.

Machine integers: the compile-time counts are C++ unsigned enums; the trees
that can actually be instantiated are far below any overflow boundary, so
counts are embedded as Nat.  The Index type of the source is unsigned char,
whose maximal value 255 is reserved as INVALID_INDEX.
-/

namespace HFSM

/-- Kind of a transition request (source part_001, struct Transition, enum Type). -/
inductive TransitionType where
  | Remain : TransitionType
  | Restart : TransitionType
  | Resume : TransitionType
  | Schedule : TransitionType
deriving DecidableEq, Repr

/-- A transition request: a kind plus the target state's tag.  TypeInfo tags
are embedded as Nat (source part_001, struct Transition). -/
structure Transition where
  type : TransitionType
  stateType : Nat
deriving DecidableEq, Repr

/-- Static tree shape declared by the host: a leaf state, a composite region
(one head state plus children) or an orthogonal region (one head state plus
children).  Composite and orthogonal regions carry the index of their Fork
record (source part_001 templates _S, _C, _O). -/
inductive STree where
  | leaf : STree
  | comp : Nat → List STree → STree
  | orth : Nat → List STree → STree

mutual

/-- Compile-time StateCount of a subtree: one for the node's own (head)
state plus the states of all children (orthogonal case from
machine_orthogonal.hpp: StateCount = State::StateCount + SubStates::StateCount;
the leaf and composite cases follow the same compositional scheme, their
headers being absent from src). -/
def stateCount : STree → Nat
  | .leaf => 1
  | .comp _ cs => 1 + stateCountList cs
  | .orth _ cs => 1 + stateCountList cs

/-- Sum of stateCount over a child list (the Sub template chain). -/
def stateCountList : List STree → Nat
  | [] => 0
  | c :: rest => stateCount c + stateCountList rest

end

mutual

/-- Compile-time ForkCount of a subtree: each composite and each orthogonal
region contributes exactly one Fork record (machine_orthogonal.hpp line 151:
ForkCount = SubStates::ForkCount + 1; composite case modelled from the spec,
machine_composite.hpp being absent from src: each composite gets one Fork). -/
def forkCount : STree → Nat
  | .leaf => 0
  | .comp _ cs => 1 + forkCountList cs
  | .orth _ cs => 1 + forkCountList cs

/-- Sum of forkCount over a child list. -/
def forkCountList : List STree → Nat
  | [] => 0
  | c :: rest => forkCount c + forkCountList rest

end

/-- Index is unsigned char; its maximal value is reserved as the invalid
index (source part_001 lines 132-133). -/
def INVALID_INDEX : Nat := 255

/-- The build-time shape check (source part_001 line 412):
static_assert(StateCount < std::numeric_limits/Index/::max()), that is
StateCount < 255; a configuration compiles exactly when this holds. -/
def shapeAccepted (t : STree) : Bool := decide (stateCount t < INVALID_INDEX)

/-- Capacity of the transition request queue (source part_001 line 423:
TransitionQueueStorage = Array of Transition sized ForkCount). -/
def transitionQueueCapacity (t : STree) : Nat := forkCount t

/-- C-style cast of a positive decimal literal num/den to unsigned:
truncation toward zero, which for nonnegative values is Nat division.
Used to embed the expression (unsigned) 1.3 of source part_001 line 416,
where the cast binds to the literal 1.3 alone. -/
def cppCastUnsigned (num den : Nat) : Nat := num / den

/-- StateCapacity of the state registry hash table (source part_001
lines 415-417): (unsigned) 1.3 * Apex::StateCount, which by C++ precedence
is ((unsigned) 1.3) * StateCount. -/
def StateCapacity (t : STree) : Nat := cppCastUnsigned 13 10 * stateCount t

/-- Default value of the MaxSubstitutions build-time parameter (source
part_001 line 110: template parameter TMaxSubstitutions = 4). -/
def defaultMaxSubstitutions : Nat := 4

/-- Bounded append to the transition queue: the storage holds at most cap
records; an append beyond capacity is a programmer error (debug assertion)
and leaves the queue unchanged in this model. -/
def pushTransition (cap : Nat) (q : List Transition) (t : Transition) : List Transition :=
  if q.length < cap then q ++ [t] else q

/-- Observable state of the root controller: the host context, the pending
request queue, and the fork array split into its active and resumable
columns (source part_001, class _R members _context, _requests,
_forkPointers). -/
structure MachineState (Ctx : Type) where
  context : Ctx
  requests : List Transition
  forkActive : Nat → Option Nat
  forkResumable : Nat → Option Nat

/-- Root controller changeTo (source part_001 line 451): push one Restart
record carrying the target tag onto the request queue. -/
def changeTo {Ctx : Type} (cap tag : Nat) (m : MachineState Ctx) : MachineState Ctx :=
  { m with requests := pushTransition cap m.requests ⟨TransitionType.Restart, tag⟩ }

/-- Root controller resume (source part_001 line 454): push one Resume
record carrying the target tag. -/
def resume {Ctx : Type} (cap tag : Nat) (m : MachineState Ctx) : MachineState Ctx :=
  { m with requests := pushTransition cap m.requests ⟨TransitionType.Resume, tag⟩ }

/-- Root controller schedule (source part_001 line 457): push one Schedule
record carrying the target tag. -/
def schedule {Ctx : Type} (cap tag : Nat) (m : MachineState Ctx) : MachineState Ctx :=
  { m with requests := pushTransition cap m.requests ⟨TransitionType.Schedule, tag⟩ }

/-- Control handle changeTo (source part_001 line 552): the Control class
wraps a reference to the same request queue and its changeTo has the same
body as the root controller's. -/
def Control.changeTo {Ctx : Type} (cap tag : Nat) (m : MachineState Ctx) : MachineState Ctx :=
  { m with requests := pushTransition cap m.requests ⟨TransitionType.Restart, tag⟩ }

/-- Control handle resume (source part_001 line 555). -/
def Control.resume {Ctx : Type} (cap tag : Nat) (m : MachineState Ctx) : MachineState Ctx :=
  { m with requests := pushTransition cap m.requests ⟨TransitionType.Resume, tag⟩ }

/-- Control handle schedule (source part_001 line 558). -/
def Control.schedule {Ctx : Type} (cap tag : Nat) (m : MachineState Ctx) : MachineState Ctx :=
  { m with requests := pushTransition cap m.requests ⟨TransitionType.Schedule, tag⟩ }

/-- Invocation of a user pre/post hook.  The Bare injection interface
(source part_001 lines 339-346) types every hook as taking only the host
Context by reference — never the Control handle — so running a hook can
only transform the context component of the machine state. -/
def runHook {Ctx : Type} (hook : Ctx → Ctx) (m : MachineState Ctx) : MachineState Ctx :=
  { m with context := hook m.context }

/-- The Fork activation record of a composite region (source part_001
lines 193-207): active, resumable and requested prong indices, each either
a prong ordinal or none (INVALID_INDEX). -/
structure ForkRec where
  active : Option Nat
  resumable : Option Nat
  requested : Option Nat
deriving DecidableEq, Repr

/-- Lifecycle operations observed by one Fork record. -/
inductive ForkOp where
  | enterProng : Nat → ForkOp
  | leaveFork : ForkOp
deriving DecidableEq, Repr

/-- Modelled from the spec: effect of deep_enter and deep_leave of a
composite on its Fork record (machine_composite.inl is absent from src).
Spec 4.3.2: deep_enter sets active to the requested prong and clears
requested; deep_leave sets resumable to active and clears active. -/
def applyForkOp (f : ForkRec) : ForkOp → ForkRec
  | .enterProng p => { f with active := some p, requested := none }
  | .leaveFork => { f with resumable := f.active, active := none }

/-- Fold a sequence of enter/leave operations over a Fork record. -/
def runForkOps (f : ForkRec) (ops : List ForkOp) : ForkRec :=
  ops.foldl applyForkOp f

/-- Modelled from the spec: the prong a Resume request selects at a
composite whose requested field was not explicitly set by the request walk
(machine_composite.inl is absent from src).  Spec 4.3.2 Resume: inherit
from the composite's own resumable, falling back to prong 0 where none. -/
def resumeSelect (f : ForkRec) : Nat := f.resumable.getD 0

/-- True when a sequence of fork operations contains no leave. -/
def noLeave (ops : List ForkOp) : Bool :=
  ops.all fun o => match o with
    | .leaveFork => false
    | _ => true

mutual

/-- Modelled from the spec: the composite-ancestor path of every state of a
subtree, given the path accumulated so far.  Each state is represented by
the list of (fork index, prong ordinal) pairs of the composites on the way
from the root to it; a composite extends the path of its child number i by
its own fork paired with i, an orthogonal region extends nothing because
all of its children are active whenever it is (spec sections 3 and 8; the
deep traversal code of machine_composite.inl is absent from src, the Parent
link representation follows source part_001 lines 139-163). -/
def statePaths : STree → List (Nat × Nat) → List (List (Nat × Nat))
  | .leaf, p => [p]
  | .comp fid cs, p => p :: compChildPaths fid 0 cs p
  | .orth _ cs, p => p :: orthChildPaths cs p

/-- Paths of the children of a composite: child number i lives under prong i. -/
def compChildPaths : Nat → Nat → List STree → List (Nat × Nat) → List (List (Nat × Nat))
  | _, _, [], _ => []
  | fid, i, c :: rest, p => statePaths c (p ++ [(fid, i)]) ++ compChildPaths fid (i + 1) rest p

/-- Paths of the children of an orthogonal region: same path as the region. -/
def orthChildPaths : List STree → List (Nat × Nat) → List (List (Nat × Nat))
  | [], _ => []
  | c :: rest, p => statePaths c p ++ orthChildPaths rest p

end

/-- A state is active exactly when every composite ancestor on its path has
active equal to the child prong leading to it (spec section 3, Active
configuration invariants; isActive of source part_001 line 460 walks the
parent chain this way, its body in machine.inl being absent from src). -/
def stateActive (cfg : Nat → Option Nat) (path : List (Nat × Nat)) : Bool :=
  path.all fun fp => decide (cfg fp.1 = some fp.2)

/-- Observable callback events of one tick, tagged by state index. -/
inductive TickEv where
  | update : Nat → TickEv
  | transition : Nat → TickEv
  | substitute : Nat → TickEv
  | leave : Nat → TickEv
  | enter : Nat → TickEv
  | overflowLog : TickEv
deriving DecidableEq, Repr

/-- Behaviour of the statically composed region tree and its user states,
abstracted as functions of the active configuration: the machine model a
tick runs over.  activeList gives the active states in depth-first order;
collect gives the requests appended by their transition callbacks;
substTarget names the state whose substitute callback a resolution round
invokes for the effective (last-wins) request; guard gives the requests
that substitute appends; leavesOf and entersOf give the states left and
entered by the apply pass; applyReq gives the configuration after apply. -/
structure TickModel (Config : Type) where
  activeList : Config → List Nat
  collect : Config → List Transition
  substTarget : Transition → Nat
  guard : Nat → List Transition
  leavesOf : Config → List Transition → List Nat
  entersOf : Config → List Transition → List Nat
  applyReq : Config → List Transition → Config

/-- Modelled from the spec: the resolution loop of processTransitions
(machine.inl, absent from src), spec section 4.4 steps 1-4.  Each round
consumes the whole queue in FIFO order into the accumulated request set,
invokes substitute once on the effective target (last request wins, spec
4.3.2 tie-break), and continues with the requests that substitute appended.
The fuel argument is the remaining substitution budget: when it is
exhausted while the queue is still not empty, resolution halts for the
tick, the pending request set is discarded and the overflow is logged.
Returns the substitution-phase trace, the consumed request set to apply,
and the overflow flag. -/
def resolveRounds {C : Type} (tm : TickModel C) :
    Nat → List Transition → List Transition → List TickEv × List Transition × Bool
  | _, [], acc => ([], acc, false)
  | 0, _ :: _, _ => ([TickEv.overflowLog], [], true)
  | fuel + 1, r :: rs, acc =>
    let tgt := tm.substTarget (rs.getLastD r)
    let next := resolveRounds tm fuel (tm.guard tgt) (acc ++ r :: rs)
    (TickEv.substitute tgt :: next.1, next.2.1, next.2.2)

/-- Modelled from the spec: one tick of the root controller (update,
machine.inl, absent from src), spec sections 4.4 and 4.5.  The whole
update and transition pass runs on the pre-resolution configuration; the
requests it appended (after any still-pending host requests) feed the
resolution loop; if resolution overflowed, the pre-tick configuration is
kept intact and nothing is applied; otherwise deep_change_to_requested
fires all leaves in reverse-depth-first order, then all enters in
depth-first order, and the configuration mutates at this single point.
Returns the tick trace, the new configuration and the overflow flag. -/
def tickRun {C : Type} (tm : TickModel C) (maxSubs : Nat) (cfg : C)
    (pending : List Transition) : List TickEv × C × Bool :=
  let act := tm.activeList cfg
  let updEvs := act.map TickEv.update ++ act.map TickEv.transition
  let res := resolveRounds tm maxSubs (pending ++ tm.collect cfg) []
  if res.2.2 then
    (updEvs ++ res.1, cfg, true)
  else
    (updEvs ++ res.1
        ++ (tm.leavesOf cfg res.2.1).map TickEv.leave
        ++ (tm.entersOf cfg res.2.1).map TickEv.enter,
      tm.applyReq cfg res.2.1, false)

/-- True on substitute events. -/
def isSubstEv : TickEv → Bool
  | .substitute _ => true
  | _ => false

/-- True on update events. -/
def isUpdateEv : TickEv → Bool
  | .update _ => true
  | _ => false

/-- True on leave events. -/
def isLeaveEv : TickEv → Bool
  | .leave _ => true
  | _ => false

/-- True on enter events. -/
def isEnterEv : TickEv → Bool
  | .enter _ => true
  | _ => false

/-- True on the enter event of the given state. -/
def isEnterOf (s : Nat) : TickEv → Bool
  | .enter t => t == s
  | _ => false

/-- True on the substitute event of the given state. -/
def isSubstOf (s : Nat) : TickEv → Bool
  | .substitute t => t == s
  | _ => false

/-- Number of substitute callback invocations in a trace. -/
def countSubst (tr : List TickEv) : Nat := (tr.filter isSubstEv).length

/-- Every event satisfying p occurs strictly before every event satisfying
q: whenever an element of the trace satisfies q, no later element
satisfies p. -/
def allBefore (p q : TickEv → Bool) : List TickEv → Bool
  | [] => true
  | e :: rest => (!q e || rest.all fun x => !p x) && allBefore p q rest

/-- Example machine model whose guard chain loops forever: the transition
callback of the only active state requests state 1, whose substitute
requests state 1 again (spec section 8 scenario 5). -/
def loopTM : TickModel Nat where
  activeList := fun _ => [0]
  collect := fun _ => [⟨TransitionType.Restart, 1⟩]
  substTarget := fun t => t.stateType
  guard := fun _ => [⟨TransitionType.Restart, 1⟩]
  leavesOf := fun _ _ => []
  entersOf := fun _ _ => []
  applyReq := fun c _ => c + 1

/-- Example machine model of one accepted switch: state 0 requests state 1,
whose substitute appends nothing, so the apply pass leaves 0 and enters 1
(spec section 8 scenario 1). -/
def switchTM : TickModel Nat where
  activeList := fun _ => [0]
  collect := fun _ => [⟨TransitionType.Restart, 1⟩]
  substTarget := fun t => t.stateType
  guard := fun _ => []
  leavesOf := fun _ _ => [0]
  entersOf := fun _ _ => [1]
  applyReq := fun c _ => c + 1

/-- Example shape with exactly 255 states: one composite holding 254 leaves. -/
def ex255 : STree := STree.comp 0 (List.replicate 254 STree.leaf)

/-- Example shape of spec scenario 1: one composite with two leaf children. -/
def exTree : STree := STree.comp 0 [STree.leaf, STree.leaf]

/-- Example configuration in which fork 0 has active prong 0. -/
def exCfg : Nat → Option Nat := fun _ => some 0

/-! Helper lemmas. -/

/-- Activity over a concatenated path is the conjunction of the parts. -/
theorem stateActive_append (cfg : Nat → Option Nat) (a b : List (Nat × Nat)) :
    stateActive cfg (a ++ b) = (stateActive cfg a && stateActive cfg b) := by
  simp [stateActive, List.all_append]

mutual

/-- Every path produced for a subtree extends the accumulated path. -/
theorem statePaths_extends : ∀ (t : STree) (p pa : List (Nat × Nat)),
    pa ∈ statePaths t p → ∃ s, p ++ s = pa
  | .leaf, p, pa, h => by
    simp [statePaths] at h
    exact ⟨[], by simp [h]⟩
  | .comp fid cs, p, pa, h => by
    simp only [statePaths, List.mem_cons] at h
    rcases h with h | h
    · exact ⟨[], by simp [h]⟩
    · exact compChildPaths_extends fid 0 cs p pa h
  | .orth fid cs, p, pa, h => by
    simp only [statePaths, List.mem_cons] at h
    rcases h with h | h
    · exact ⟨[], by simp [h]⟩
    · exact orthChildPaths_extends cs p pa h

/-- Every path produced for a composite's children extends the accumulated path. -/
theorem compChildPaths_extends : ∀ (fid i : Nat) (cs : List STree) (p pa : List (Nat × Nat)),
    pa ∈ compChildPaths fid i cs p → ∃ s, p ++ s = pa
  | _, _, [], p, pa, h => by simp [compChildPaths] at h
  | fid, i, c :: rest, p, pa, h => by
    simp only [compChildPaths, List.mem_append] at h
    rcases h with h | h
    · obtain ⟨s, hs⟩ := statePaths_extends c (p ++ [(fid, i)]) pa h
      exact ⟨(fid, i) :: s, by simpa using hs⟩
    · exact compChildPaths_extends fid (i + 1) rest p pa h

/-- Every path produced for an orthogonal region's children extends the
accumulated path. -/
theorem orthChildPaths_extends : ∀ (cs : List STree) (p pa : List (Nat × Nat)),
    pa ∈ orthChildPaths cs p → ∃ s, p ++ s = pa
  | [], p, pa, h => by simp [orthChildPaths] at h
  | c :: rest, p, pa, h => by
    simp only [orthChildPaths, List.mem_append] at h
    rcases h with h | h
    · exact statePaths_extends c p pa h
    · exact orthChildPaths_extends rest p pa h

end

/-- An active path pins the configuration of every fork on it. -/
theorem stateActive_mem_eq (cfg : Nat → Option Nat) (pa : List (Nat × Nat))
    (f pr : Nat) (hact : stateActive cfg pa = true) (hmem : (f, pr) ∈ pa) :
    cfg f = some pr := by
  simp only [stateActive, List.all_eq_true, decide_eq_true_eq] at hact
  exact hact (f, pr) hmem

/-- The number of substitution passes during resolution never exceeds the
remaining budget. -/
theorem resolveRounds_substCount {C : Type} (tm : TickModel C) :
    ∀ (fuel : Nat) (q acc : List Transition),
      countSubst (resolveRounds tm fuel q acc).1 ≤ fuel := by
  intro fuel
  induction fuel with
  | zero =>
    intro q acc
    cases q <;> simp [resolveRounds, countSubst, isSubstEv]
  | succ n ih =>
    intro q acc
    cases q with
    | nil => simp [resolveRounds, countSubst]
    | cons r rs =>
      simp only [resolveRounds, countSubst, List.filter, isSubstEv]
      exact Nat.succ_le_succ (ih _ _)

/-- The resolution-phase trace holds only substitute events and the
overflow report. -/
theorem resolveRounds_events {C : Type} (tm : TickModel C) :
    ∀ (fuel : Nat) (q acc : List Transition),
      ∀ e ∈ (resolveRounds tm fuel q acc).1,
        isLeaveEv e = false ∧ isEnterEv e = false ∧ isUpdateEv e = false := by
  intro fuel
  induction fuel with
  | zero =>
    intro q acc e he
    cases q with
    | nil => simp [resolveRounds] at he
    | cons r rs =>
      simp [resolveRounds] at he
      subst he
      exact ⟨rfl, rfl, rfl⟩
  | succ n ih =>
    intro q acc e he
    cases q with
    | nil => simp [resolveRounds] at he
    | cons r rs =>
      simp only [resolveRounds, List.mem_cons] at he
      rcases he with he | he
      · subst he; exact ⟨rfl, rfl, rfl⟩
      · exact ih _ _ e he

/-- An overflowing resolution reports via the log event. -/
theorem resolveRounds_overflow_mem {C : Type} (tm : TickModel C) :
    ∀ (fuel : Nat) (q acc : List Transition),
      (resolveRounds tm fuel q acc).2.2 = true →
      TickEv.overflowLog ∈ (resolveRounds tm fuel q acc).1 := by
  intro fuel
  induction fuel with
  | zero =>
    intro q acc h
    cases q with
    | nil => simp [resolveRounds] at h
    | cons r rs => simp [resolveRounds]
  | succ n ih =>
    intro q acc h
    cases q with
    | nil => simp [resolveRounds] at h
    | cons r rs =>
      simp only [resolveRounds] at h ⊢
      exact List.mem_cons_of_mem _ (ih _ _ h)

/-- An overflowing resolution discards the pending request set. -/
theorem resolveRounds_overflow_discard {C : Type} (tm : TickModel C) :
    ∀ (fuel : Nat) (q acc : List Transition),
      (resolveRounds tm fuel q acc).2.2 = true →
      (resolveRounds tm fuel q acc).2.1 = [] := by
  intro fuel
  induction fuel with
  | zero =>
    intro q acc h
    cases q with
    | nil => simp [resolveRounds] at h
    | cons r rs => simp [resolveRounds]
  | succ n ih =>
    intro q acc h
    cases q with
    | nil => simp [resolveRounds] at h
    | cons r rs =>
      simp only [resolveRounds] at h ⊢
      exact ih _ _ h

/-- A completed resolution consumes the accumulated requests and the queue
front-to-back: its applied request set extends them in order. -/
theorem resolveRounds_consumed {C : Type} (tm : TickModel C) :
    ∀ (fuel : Nat) (q acc : List Transition),
      (resolveRounds tm fuel q acc).2.2 = false →
      ∃ s, (acc ++ q) ++ s = (resolveRounds tm fuel q acc).2.1 := by
  intro fuel
  induction fuel with
  | zero =>
    intro q acc h
    cases q with
    | nil => exact ⟨[], by simp [resolveRounds]⟩
    | cons r rs => simp [resolveRounds] at h
  | succ n ih =>
    intro q acc h
    cases q with
    | nil => exact ⟨[], by simp [resolveRounds]⟩
    | cons r rs =>
      simp only [resolveRounds] at h ⊢
      obtain ⟨s, hs⟩ := ih (tm.guard (tm.substTarget (rs.getLastD r))) (acc ++ r :: rs) h
      refine ⟨tm.guard (tm.substTarget (rs.getLastD r)) ++ s, ?_⟩
      rw [← hs]
      simp [List.append_assoc]

/-- Substitute count distributes over concatenation. -/
theorem countSubst_append (a b : List TickEv) :
    countSubst (a ++ b) = countSubst a + countSubst b := by
  simp [countSubst, List.filter_append]

/-- A mapped phase whose constructor is not substitute contributes no
substitute events. -/
theorem countSubst_map_eq_zero (f : Nat → TickEv)
    (hf : ∀ x, isSubstEv (f x) = false) (l : List Nat) :
    countSubst (l.map f) = 0 := by
  induction l with
  | nil => rfl
  | cons x xs ih => simpa [countSubst, List.filter_cons, hf x] using ih

/-- A trace with no q event trivially orders every p event before q. -/
theorem allBefore_of_no_q (p q : TickEv → Bool) :
    ∀ tr : List TickEv, (∀ e ∈ tr, q e = false) → allBefore p q tr = true := by
  intro tr
  induction tr with
  | nil => intro _; rfl
  | cons e rest ih =>
    intro h
    simp only [allBefore, Bool.and_eq_true]
    refine ⟨?_, ih fun x hx => h x (List.mem_cons_of_mem _ hx)⟩
    have he : q e = false := h e (List.mem_cons_self _ _)
    simp [he]

/-- A trace with no p event trivially orders every p event before q. -/
theorem allBefore_of_no_p (p q : TickEv → Bool) :
    ∀ tr : List TickEv, (∀ e ∈ tr, p e = false) → allBefore p q tr = true := by
  intro tr
  induction tr with
  | nil => intro _; rfl
  | cons e rest ih =>
    intro h
    simp only [allBefore, Bool.and_eq_true]
    refine ⟨?_, ih fun x hx => h x (List.mem_cons_of_mem _ hx)⟩
    have hall : rest.all (fun x => !p x) = true := by
      simp only [List.all_eq_true, Bool.not_eq_true']
      exact fun x hx => h x (List.mem_cons_of_mem _ hx)
    simp [hall]

/-- When the earlier segment holds no q event and the later one no p event,
all p events precede all q events. -/
theorem allBefore_append (p q : TickEv → Bool) :
    ∀ (xs ys : List TickEv),
      (∀ e ∈ xs, q e = false) → (∀ e ∈ ys, p e = false) →
      allBefore p q (xs ++ ys) = true := by
  intro xs ys
  induction xs with
  | nil =>
    intro _ hp
    simpa using allBefore_of_no_p p q ys hp
  | cons e rest ih =>
    intro hq hp
    simp only [List.cons_append, allBefore, Bool.and_eq_true]
    refine ⟨?_, ih (fun x hx => hq x (List.mem_cons_of_mem _ hx)) hp⟩
    have he : q e = false := hq e (List.mem_cons_self _ _)
    simp [he]

/-- Pointwise facts extend over concatenation. -/
theorem forall_mem_append_ev {P : TickEv → Prop} {a b : List TickEv}
    (ha : ∀ e ∈ a, P e) (hb : ∀ e ∈ b, P e) : ∀ e ∈ a ++ b, P e := by
  intro e he
  rcases List.mem_append.mp he with h | h
  · exact ha e h
  · exact hb e h

/-- Events of the update phase are neither leave, enter nor substitute. -/
theorem mem_map_update_kinds (l : List Nat) :
    ∀ e ∈ l.map TickEv.update,
      isLeaveEv e = false ∧ isEnterEv e = false ∧ isSubstEv e = false := by
  intro e he
  obtain ⟨x, _, rfl⟩ := List.mem_map.mp he
  exact ⟨rfl, rfl, rfl⟩

/-- Events of the transition phase are neither leave, enter nor substitute. -/
theorem mem_map_transition_kinds (l : List Nat) :
    ∀ e ∈ l.map TickEv.transition,
      isLeaveEv e = false ∧ isEnterEv e = false ∧ isSubstEv e = false := by
  intro e he
  obtain ⟨x, _, rfl⟩ := List.mem_map.mp he
  exact ⟨rfl, rfl, rfl⟩

/-- Events of the leave pass are neither update, enter nor substitute. -/
theorem mem_map_leave_kinds (l : List Nat) :
    ∀ e ∈ l.map TickEv.leave,
      isUpdateEv e = false ∧ isEnterEv e = false ∧ isSubstEv e = false := by
  intro e he
  obtain ⟨x, _, rfl⟩ := List.mem_map.mp he
  exact ⟨rfl, rfl, rfl⟩

/-- Events of the enter pass are neither update, leave nor substitute. -/
theorem mem_map_enter_kinds (l : List Nat) :
    ∀ e ∈ l.map TickEv.enter,
      isUpdateEv e = false ∧ isLeaveEv e = false ∧ isSubstEv e = false := by
  intro e he
  obtain ⟨x, _, rfl⟩ := List.mem_map.mp he
  exact ⟨rfl, rfl, rfl⟩

/-- A leave-free sequence of operations never touches resumable. -/
theorem noLeave_resumable :
    ∀ (ops : List ForkOp) (g : ForkRec), noLeave ops = true →
      (runForkOps g ops).resumable = g.resumable := by
  intro ops
  induction ops with
  | nil => intro g _; rfl
  | cons o rest ih =>
    intro g h
    simp only [noLeave, List.all_cons, Bool.and_eq_true] at h
    cases o with
    | enterProng p =>
      have := ih (applyForkOp g (ForkOp.enterProng p)) (by simp [noLeave, h.2])
      simpa [runForkOps, List.foldl_cons, applyForkOp] using this
    | leaveFork => simp at h

/-! Claim theorems. -/

set_option maxRecDepth 8000

/-- C1 counterexample: the shape with exactly 255 states satisfies
StateCount ≤ 255 yet the build-time check rejects it, because the static
assertion of the source demands StateCount strictly below 255. -/
theorem c1_shape_check_counterexample :
    stateCount ex255 = 255 ∧ stateCount ex255 ≤ 255 ∧ shapeAccepted ex255 = false := by
  refine ⟨?_, ?_, ?_⟩ <;> decide

/-- C1 (amended): the build-time shape check accepts a configuration
exactly when StateCount ≤ 254 (StateCount < 255, keeping 255 free as
INVALID_INDEX); in particular every configuration with StateCount > 255 is
rejected at compile time. -/
theorem c1_shape_check_amended (t : STree) :
    shapeAccepted t = true ↔ stateCount t ≤ 254 := by
  simp only [shapeAccepted, INVALID_INDEX, decide_eq_true_eq]
  omega

/-- C2: the transition request queue is bounded by ForkCount — its storage
capacity equals ForkCount, a bounded append never grows it past the
capacity, an append below capacity appends exactly at the end, and a
completed resolution consumes the queue front-to-back, its applied request
set extending the initial queue in FIFO order. -/
theorem c2_queue_bounded_fifo :
    (∀ t : STree, transitionQueueCapacity t = forkCount t)
  ∧ (∀ (cap : Nat) (q : List Transition) (r : Transition),
      q.length ≤ cap → (pushTransition cap q r).length ≤ cap)
  ∧ (∀ (cap : Nat) (q : List Transition) (r : Transition),
      q.length < cap → pushTransition cap q r = q ++ [r])
  ∧ (∀ (C : Type) (tm : TickModel C) (fuel : Nat) (q : List Transition),
      (resolveRounds tm fuel q []).2.2 = false →
      ∃ s, q ++ s = (resolveRounds tm fuel q []).2.1) := by
  refine ⟨fun _ => rfl, ?_, ?_, ?_⟩
  · intro cap q r h
    by_cases hlt : q.length < cap
    · simp [pushTransition, hlt]
      omega
    · simp [pushTransition, hlt]
      omega
  · intro cap q r h
    simp [pushTransition, h]
  · intro C tm fuel q h
    obtain ⟨s, hs⟩ := resolveRounds_consumed tm fuel q [] h
    exact ⟨s, by simpa using hs⟩

/-- C2 witness: the bounded push and the FIFO consumption at concrete
inputs. -/
theorem c2_queue_bounded_fifo_witness :
    (pushTransition 2 [⟨TransitionType.Restart, 1⟩] ⟨TransitionType.Resume, 2⟩).length ≤ 2
  ∧ pushTransition 2 [⟨TransitionType.Restart, 1⟩] ⟨TransitionType.Resume, 2⟩
      = [⟨TransitionType.Restart, 1⟩] ++ [⟨TransitionType.Resume, 2⟩]
  ∧ ∃ s, [(⟨TransitionType.Restart, 1⟩ : Transition)] ++ s
      = (resolveRounds switchTM 4 [⟨TransitionType.Restart, 1⟩] []).2.1 :=
  ⟨c2_queue_bounded_fifo.2.1 2 [⟨TransitionType.Restart, 1⟩] ⟨TransitionType.Resume, 2⟩
      (by decide),
   c2_queue_bounded_fifo.2.2.1 2 [⟨TransitionType.Restart, 1⟩] ⟨TransitionType.Resume, 2⟩
      (by decide),
   c2_queue_bounded_fifo.2.2.2 Nat switchTM 4 [⟨TransitionType.Restart, 1⟩] (by decide)⟩

/-- C3: over any tick, the number of substitute callback invocations
between two consecutive update boundaries is at most MaxSubstitutions, and
the build-time parameter defaults to 4. -/
theorem c3_substitution_bound {C : Type} (tm : TickModel C) (maxSubs : Nat)
    (cfg : C) (pending : List Transition) :
    countSubst (tickRun tm maxSubs cfg pending).1 ≤ maxSubs
  ∧ defaultMaxSubstitutions = 4 := by
  refine ⟨?_, rfl⟩
  by_cases hov : (resolveRounds tm maxSubs (pending ++ tm.collect cfg) []).2.2 = true
  · simp only [tickRun, if_pos hov]
    rw [countSubst_append, countSubst_append,
      countSubst_map_eq_zero TickEv.update (fun _ => rfl),
      countSubst_map_eq_zero TickEv.transition (fun _ => rfl)]
    simpa using resolveRounds_substCount tm maxSubs _ []
  · simp only [tickRun, if_neg hov]
    rw [countSubst_append, countSubst_append, countSubst_append, countSubst_append,
      countSubst_map_eq_zero TickEv.update (fun _ => rfl),
      countSubst_map_eq_zero TickEv.transition (fun _ => rfl),
      countSubst_map_eq_zero TickEv.leave (fun _ => rfl),
      countSubst_map_eq_zero TickEv.enter (fun _ => rfl)]
    simpa using resolveRounds_substCount tm maxSubs _ []

/-- C4: a substitution-bound overflow is recoverable and atomic — the
pre-tick configuration is returned intact, the overflow is reported via
the log event, no leave or enter event occurs in the tick trace, and the
pending request set of the tick is discarded. -/
theorem c4_overflow_recoverable {C : Type} (tm : TickModel C) (maxSubs : Nat)
    (cfg : C) (pending : List Transition)
    (h : (tickRun tm maxSubs cfg pending).2.2 = true) :
    (tickRun tm maxSubs cfg pending).2.1 = cfg
  ∧ TickEv.overflowLog ∈ (tickRun tm maxSubs cfg pending).1
  ∧ (∀ e ∈ (tickRun tm maxSubs cfg pending).1,
      isLeaveEv e = false ∧ isEnterEv e = false)
  ∧ (resolveRounds tm maxSubs (pending ++ tm.collect cfg) []).2.1 = [] := by
  by_cases hov : (resolveRounds tm maxSubs (pending ++ tm.collect cfg) []).2.2 = true
  · refine ⟨by simp [tickRun, if_pos hov], ?_, ?_,
      resolveRounds_overflow_discard tm maxSubs _ [] hov⟩
    · simp only [tickRun, if_pos hov]
      exact List.mem_append_right _ (resolveRounds_overflow_mem tm maxSubs _ [] hov)
    · simp only [tickRun, if_pos hov]
      refine forall_mem_append_ev (forall_mem_append_ev ?_ ?_) ?_
      · exact fun e he => ⟨(mem_map_update_kinds _ e he).1, (mem_map_update_kinds _ e he).2.1⟩
      · exact fun e he => ⟨(mem_map_transition_kinds _ e he).1, (mem_map_transition_kinds _ e he).2.1⟩
      · exact fun e he => ⟨(resolveRounds_events tm maxSubs _ [] e he).1,
          (resolveRounds_events tm maxSubs _ [] e he).2.1⟩
  · exfalso
    simp only [Bool.not_eq_true] at hov
    simp [tickRun, hov] at h

/-- C4 witness: the looping guard chain of spec scenario 5 overflows and
leaves the pre-tick configuration intact. -/
theorem c4_overflow_recoverable_witness :
    (tickRun loopTM 4 0 []).2.1 = 0
  ∧ TickEv.overflowLog ∈ (tickRun loopTM 4 0 []).1 :=
  ⟨(c4_overflow_recoverable loopTM 4 0 [] (by decide)).1,
   (c4_overflow_recoverable loopTM 4 0 [] (by decide)).2.1⟩

/-- C5: for every composite fork at most one prong is active, a subtree
whose root path is inactive holds no active state, and a state is active
exactly when every composite ancestor on its path has active equal to the
child prong leading to it. -/
theorem c5_exclusivity :
    (∀ (cfg : Nat → Option Nat) (t : STree) (f p q : Nat)
        (pa pb : List (Nat × Nat)),
        pa ∈ statePaths t [] → pb ∈ statePaths t [] →
        (f, p) ∈ pa → (f, q) ∈ pb → p ≠ q →
        ¬(stateActive cfg pa = true ∧ stateActive cfg pb = true))
  ∧ (∀ (cfg : Nat → Option Nat) (t : STree) (p pa : List (Nat × Nat)),
        pa ∈ statePaths t p → stateActive cfg p = false → stateActive cfg pa = false)
  ∧ (∀ (cfg : Nat → Option Nat) (pa : List (Nat × Nat)),
        stateActive cfg pa = true ↔ ∀ fp ∈ pa, cfg fp.1 = some fp.2) := by
  refine ⟨?_, ?_, ?_⟩
  · intro cfg t f p q pa pb _ _ hp hq hne ⟨ha, hb⟩
    have h1 := stateActive_mem_eq cfg pa f p ha hp
    have h2 := stateActive_mem_eq cfg pb f q hb hq
    rw [h1] at h2
    exact hne (Option.some_injective _ h2)
  · intro cfg t p pa hmem hinact
    obtain ⟨s, hs⟩ := statePaths_extends t p pa hmem
    rw [← hs, stateActive_append, hinact]
    rfl
  · intro cfg pa
    simp [stateActive, List.all_eq_true]

/-- C5 witness: in the two-prong composite of spec scenario 1 with prong 0
active, the two prongs cannot both be active. -/
theorem c5_exclusivity_witness :
    ¬(stateActive exCfg [(0, 0)] = true ∧ stateActive exCfg [(0, 1)] = true) :=
  c5_exclusivity.1 exCfg exTree 0 0 1 [(0, 0)] [(0, 1)]
    (by decide) (by decide) (by decide) (by decide) (by decide)

/-- C6 counterexample: in the accepted switch of spec scenario 1 the
substitute of the target state fires during resolution, before the apply
pass, so the enter of that state does not complete before its matching
substitute — the trace is explicit and the ordering test is false. -/
theorem c6_ordering_counterexample :
    (tickRun switchTM 4 0 []).1
      = [TickEv.update 0, TickEv.transition 0, TickEv.substitute 1,
         TickEv.leave 0, TickEv.enter 1]
    ∧ allBefore (isEnterOf 1) (isSubstOf 1) (tickRun switchTM 4 0 []).1 = false :=
  ⟨rfl, rfl⟩

/-- C6 (amended): within any tick every update completes before any leave,
every leave completes before the matching enter, and every substitute
completes before the matching enter (substitution runs during resolution,
before the single apply point). -/
theorem c6_ordering_amended {C : Type} (tm : TickModel C) (maxSubs : Nat)
    (cfg : C) (pending : List Transition) :
    allBefore isUpdateEv isLeaveEv (tickRun tm maxSubs cfg pending).1 = true
  ∧ allBefore isLeaveEv isEnterEv (tickRun tm maxSubs cfg pending).1 = true
  ∧ allBefore isSubstEv isEnterEv (tickRun tm maxSubs cfg pending).1 = true := by
  by_cases hov : (resolveRounds tm maxSubs (pending ++ tm.collect cfg) []).2.2 = true
  · simp only [tickRun, if_pos hov]
    have hnoLE : ∀ e ∈ (tm.activeList cfg).map TickEv.update
        ++ (tm.activeList cfg).map TickEv.transition
        ++ (resolveRounds tm maxSubs (pending ++ tm.collect cfg) []).1,
        isLeaveEv e = false ∧ isEnterEv e = false := by
      refine forall_mem_append_ev (forall_mem_append_ev ?_ ?_) ?_
      · exact fun e he => ⟨(mem_map_update_kinds _ e he).1, (mem_map_update_kinds _ e he).2.1⟩
      · exact fun e he => ⟨(mem_map_transition_kinds _ e he).1, (mem_map_transition_kinds _ e he).2.1⟩
      · exact fun e he => ⟨(resolveRounds_events tm maxSubs _ [] e he).1,
          (resolveRounds_events tm maxSubs _ [] e he).2.1⟩
    exact ⟨allBefore_of_no_q _ _ _ fun e he => (hnoLE e he).1,
      allBefore_of_no_q _ _ _ fun e he => (hnoLE e he).2,
      allBefore_of_no_q _ _ _ fun e he => (hnoLE e he).2⟩
  · simp only [tickRun, if_neg hov]
    refine ⟨?_, ?_, ?_⟩
    · rw [List.append_assoc]
      refine allBefore_append _ _ _ _ ?_ ?_
      · refine forall_mem_append_ev (forall_mem_append_ev ?_ ?_) ?_
        · exact fun e he => (mem_map_update_kinds _ e he).1
        · exact fun e he => (mem_map_transition_kinds _ e he).1
        · exact fun e he => (resolveRounds_events tm maxSubs _ [] e he).1
      · refine forall_mem_append_ev ?_ ?_
        · exact fun e he => (mem_map_leave_kinds _ e he).1
        · exact fun e he => (mem_map_enter_kinds _ e he).1
    · refine allBefore_append _ _ _ _ ?_ ?_
      · refine forall_mem_append_ev (forall_mem_append_ev (forall_mem_append_ev ?_ ?_) ?_) ?_
        · exact fun e he => (mem_map_update_kinds _ e he).2.1
        · exact fun e he => (mem_map_transition_kinds _ e he).2.1
        · exact fun e he => (resolveRounds_events tm maxSubs _ [] e he).2.1
        · exact fun e he => (mem_map_leave_kinds _ e he).2.1
      · exact fun e he => (mem_map_enter_kinds _ e he).2.1
    · refine allBefore_append _ _ _ _ ?_ ?_
      · refine forall_mem_append_ev (forall_mem_append_ev (forall_mem_append_ev ?_ ?_) ?_) ?_
        · exact fun e he => (mem_map_update_kinds _ e he).2.1
        · exact fun e he => (mem_map_transition_kinds _ e he).2.1
        · exact fun e he => (resolveRounds_events tm maxSubs _ [] e he).2.1
        · exact fun e he => (mem_map_leave_kinds _ e he).2.1
      · exact fun e he => (mem_map_enter_kinds _ e he).2.2

/-- C7: resumable is written only by leave — enter preserves it, leave
records the previously active prong, and through any leave-free suffix a
subsequent Resume selection picks exactly the prong active at the most
recent leave. -/
theorem c7_resume_fidelity :
    (∀ (f : ForkRec) (p : Nat),
        (applyForkOp f (ForkOp.enterProng p)).resumable = f.resumable)
  ∧ (∀ f : ForkRec, (applyForkOp f ForkOp.leaveFork).resumable = f.active)
  ∧ (∀ (f : ForkRec) (p : Nat) (ops : List ForkOp),
        f.active = some p → noLeave ops = true →
        (runForkOps (applyForkOp f ForkOp.leaveFork) ops).resumable = some p
        ∧ resumeSelect (runForkOps (applyForkOp f ForkOp.leaveFork) ops) = p) := by
  refine ⟨fun f p => rfl, fun f => rfl, ?_⟩
  intro f p ops hact hops
  have h := noLeave_resumable ops (applyForkOp f ForkOp.leaveFork) hops
  have h2 : (applyForkOp f ForkOp.leaveFork).resumable = some p := by
    rw [← hact]
    rfl
  have hres := h.trans h2
  exact ⟨hres, by simp [resumeSelect, hres]⟩

/-- C7 witness: after leaving with prong 1 active and re-entering prong 0,
resumable still names prong 1 and Resume selects it. -/
theorem c7_resume_fidelity_witness :
    (runForkOps (applyForkOp ⟨some 1, some 0, none⟩ ForkOp.leaveFork)
        [ForkOp.enterProng 0]).resumable = some 1
  ∧ resumeSelect (runForkOps (applyForkOp ⟨some 1, some 0, none⟩ ForkOp.leaveFork)
        [ForkOp.enterProng 0]) = 1 :=
  c7_resume_fidelity.2.2 ⟨some 1, some 0, none⟩ 1 [ForkOp.enterProng 0] rfl rfl

/-- C8: below capacity, each of changeTo, resume and schedule — on the
root controller as well as on the Control handle — appends exactly one
request record of kind Restart, Resume and Schedule respectively, carrying
the target tag, at the end of the queue, and leaves the active
configuration untouched at call time; the configuration mutates only at
the single resolution apply point of a tick. -/
theorem c8_request_api (Ctx : Type) (cap tag : Nat) (m : MachineState Ctx)
    (h : m.requests.length < cap) :
    ((changeTo cap tag m).requests = m.requests ++ [⟨TransitionType.Restart, tag⟩]
      ∧ (changeTo cap tag m).forkActive = m.forkActive
      ∧ (changeTo cap tag m).forkResumable = m.forkResumable)
  ∧ ((resume cap tag m).requests = m.requests ++ [⟨TransitionType.Resume, tag⟩]
      ∧ (resume cap tag m).forkActive = m.forkActive
      ∧ (resume cap tag m).forkResumable = m.forkResumable)
  ∧ ((schedule cap tag m).requests = m.requests ++ [⟨TransitionType.Schedule, tag⟩]
      ∧ (schedule cap tag m).forkActive = m.forkActive
      ∧ (schedule cap tag m).forkResumable = m.forkResumable)
  ∧ Control.changeTo cap tag m = changeTo cap tag m
  ∧ Control.resume cap tag m = resume cap tag m
  ∧ Control.schedule cap tag m = schedule cap tag m
  ∧ (∀ (C : Type) (tm : TickModel C) (ms : Nat) (cfg : C) (pd : List Transition),
      (tickRun tm ms cfg pd).2.1 = cfg
      ∨ (tickRun tm ms cfg pd).2.1
          = tm.applyReq cfg (resolveRounds tm ms (pd ++ tm.collect cfg) []).2.1) := by
  refine ⟨⟨?_, rfl, rfl⟩, ⟨?_, rfl, rfl⟩, ⟨?_, rfl, rfl⟩, rfl, rfl, rfl, ?_⟩
  · simp [changeTo, pushTransition, h]
  · simp [resume, pushTransition, h]
  · simp [schedule, pushTransition, h]
  · intro C tm ms cfg pd
    by_cases hov : (resolveRounds tm ms (pd ++ tm.collect cfg) []).2.2 = true
    · left
      simp [tickRun, if_pos hov]
    · right
      simp [tickRun, if_neg hov]

/-- C8 witness: changeTo on an empty queue of capacity 1 appends the one
Restart record. -/
theorem c8_request_api_witness :
    (changeTo 1 7 (⟨0, [], fun _ => none, fun _ => none⟩ : MachineState Nat)).requests
      = [] ++ [⟨TransitionType.Restart, 7⟩] :=
  ((c8_request_api Nat 1 7 ⟨0, [], fun _ => none, fun _ => none⟩ (by decide)).1).1

/-- C9: a pre/post hook invocation receives only the Context, so it leaves
the transition request queue — and the whole active configuration —
unchanged. -/
theorem c9_hooks_no_requests (Ctx : Type) (hook : Ctx → Ctx) (m : MachineState Ctx) :
    (runHook hook m).requests = m.requests
  ∧ (runHook hook m).forkActive = m.forkActive
  ∧ (runHook hook m).forkResumable = m.forkResumable :=
  ⟨rfl, rfl, rfl⟩

/-- C10: for every tree shape the registry hash-table capacity, written
(unsigned) 1.3 * StateCount, equals exactly StateCount — the cast applies
to the literal 1.3 alone and truncates it to 1 before the multiplication. -/
theorem c10_state_capacity (t : STree) : StateCapacity t = stateCount t := by
  simp [StateCapacity, cppCastUnsigned]

end HFSM
